import Mathlib

/-!
Verification of the MSSQL quote-fix driver shim (inventory/debug package).

The Go source operates on statement text byte-by-byte; every construct the
claims exercise is ASCII, so statements are modelled as `List Char`.  Pure
string helpers from the Go standard library (`strings.ToLower`,
`strings.TrimSpace`, `strings.HasPrefix`, `strings.Contains`,
`strings.Index`) are embedded as the functions `lowerL`, `goTrimSpace`,
`List.isPrefixOf`, `containsStr` and `strIndex` below.  The two anchored
regular expressions of `transformLimitQuery` are embedded as suffix parsers
that scan the reversed statement; a comment at their definition justifies the
correspondence with RE2 leftmost-match semantics.
-/

namespace MSSQLFix

/-- The single-quote character, written via its code point. -/
def sq : Char := Char.ofNat 39

/-- The back-tick character, written via its code point. -/
def bt : Char := Char.ofNat 96

/-- Whitespace as trimmed by Go's `strings.TrimSpace` (`unicode.IsSpace`):
U+0009..U+000D, U+0020, U+0085, U+00A0, U+1680, U+2000..U+200A, U+2028,
U+2029, U+202F, U+205F, U+3000. -/
def isGoSpace (c : Char) : Bool :=
  let n := c.toNat
  if n = 0x20 ∨ (0x9 ≤ n ∧ n ≤ 0xD) ∨ n = 0x85 ∨ n = 0xA0 ∨ n = 0x1680 ∨
     (0x2000 ≤ n ∧ n ≤ 0x200A) ∨ n = 0x2028 ∨ n = 0x2029 ∨ n = 0x202F ∨
     n = 0x205F ∨ n = 0x3000 then true else false

/-- Whitespace as matched by the RE2 Perl class `\s`: `[\t\n\f\r ]`. -/
def isRegSpace (c : Char) : Bool :=
  if c = '\t' ∨ c = '\n' ∨ c = '\x0c' ∨ c = '\r' ∨ c = ' ' then true else false

/-- Go's `strings.ToLower` restricted to ASCII (all statements at issue are
ASCII; Lean's `Char.toLower` lowercases exactly the basic latin letters). -/
def lowerL (s : List Char) : List Char := s.map Char.toLower

/-- Go's `strings.TrimSpace`: drop leading and trailing `unicode.IsSpace`
characters. -/
def goTrimSpace (s : List Char) : List Char :=
  ((s.dropWhile isGoSpace).reverse.dropWhile isGoSpace).reverse

/-- Go's `strings.Index s pat`, returning the first index at which `pat`
occurs as a contiguous substring of `s` (`none` for Go's `-1`). -/
def strIndex (pat : List Char) : List Char → Option Nat
  | [] => if pat.isEmpty then some 0 else none
  | c :: rest =>
    if pat.isPrefixOf (c :: rest) then some 0
    else (strIndex pat rest).map (· + 1)

/-- Go's `strings.Contains s pat` (`strings.Index s pat >= 0`). -/
def containsStr (s pat : List Char) : Bool := (strIndex pat s).isSome

/-- The loop body of `translate` (src/unnamed/part_000, lines 57-114),
embedded as structural recursion over the remaining input.  State:
`ob` is `openBracket` (next back-tick becomes `[` when true), `inS` is
`inString`, `p` is `paramIndex`.  `Nat.toDigits 10 p` is the character list
of `strconv.Itoa p`. -/
def translateAux : List Char → Bool → Bool → Nat → List Char
  | [], _, _, _ => []
  | c :: rest, ob, inS, p =>
    if c = sq then
      if inS then
        match rest with
        | c2 :: rest2 =>
          if c2 = sq then sq :: sq :: translateAux rest2 ob true p
          else sq :: translateAux (c2 :: rest2) ob false p
        | [] => [sq]
      else sq :: translateAux rest ob true p
    else if c = bt then
      if inS then c :: translateAux rest ob inS p
      else (if ob then '[' else ']') :: translateAux rest (!ob) inS p
    else if c = '?' then
      if inS then c :: translateAux rest ob inS p
      else '@' :: 'p' :: (Nat.toDigits 10 p ++ translateAux rest ob inS (p + 1))
    else c :: translateAux rest ob inS p

/-- The function `translate`: initial state `openBracket = true`,
`inString = false`, `paramIndex = 1`. -/
def translate (query : List Char) : List Char := translateAux query true false 1

/-- Reference (specification-side) description of the scanner's string
literal discipline: each input character paired with the "inside string
literal" status under which the scanner processes it.  An opening quote is
processed outside, a closing quote inside, and both halves of a doubled
(escaped) quote inside. -/
def litFlags : List Char → Bool → List (Char × Bool)
  | [], _ => []
  | c :: rest, inS =>
    if c = sq then
      if inS then
        match rest with
        | c2 :: rest2 =>
          if c2 = sq then (c, true) :: (c2, true) :: litFlags rest2 true
          else (c, true) :: litFlags (c2 :: rest2) false
        | [] => [(c, true)]
      else (c, false) :: litFlags rest true
    else (c, inS) :: litFlags rest inS

/-- Reference (specification-side) rewriting pass over flag-annotated input:
characters inside a literal are copied verbatim; outside a literal a
back-tick becomes the alternating bracket, a `?` becomes `@p` followed by the
current counter value (which is then incremented), and everything else is
copied.  `translate` is proved equal to `litFlags` followed by this pass. -/
def rewriteFlagged : List (Char × Bool) → Bool → Nat → List Char
  | [], _, _ => []
  | (c, flag) :: rest, ob, p =>
    if flag then c :: rewriteFlagged rest ob p
    else if c = bt then (if ob then '[' else ']') :: rewriteFlagged rest (!ob) p
    else if c = '?' then '@' :: 'p' :: (Nat.toDigits 10 p ++ rewriteFlagged rest ob (p + 1))
    else c :: rewriteFlagged rest ob p

/-- Case-insensitive literal matcher: `stripCI pat s` strips a prefix of `s`
whose lowercasing is `pat` (given in lowercase), returning the rest. -/
def stripCI : List Char → List Char → Option (List Char)
  | [], s => some s
  | _ :: _, [] => none
  | p :: ps, c :: cs => if c.toLower = p then stripCI ps cs else none

/-- Embedding of the anchored regex `(?i)\s+LIMIT\s+(\d+)\s*$` applied by
`regexp.FindStringSubmatch` to the whitespace-trimmed statement.  The
argument is the reversed trimmed statement.  Because the pattern is anchored
at `$` and the trimmed text has no trailing whitespace, a match is forced
from the right: the capture is the maximal trailing digit run (the character
before it inside any match is `\s`), the run of `\s` before `LIMIT` is
maximal in the leftmost match, and `m[1]` and the prefix before the match are
therefore unique.  Returns `(prefix before the match, captured digits)`. -/
def splitLimitOnlyRev (r : List Char) : Option (List Char × List Char) :=
  let nRev := r.takeWhile Char.isDigit
  let r1 := r.dropWhile Char.isDigit
  if nRev.isEmpty then none else
  let w2 := r1.takeWhile isRegSpace
  let r2 := r1.dropWhile isRegSpace
  if w2.isEmpty then none else
  match stripCI ('t' :: 'i' :: 'm' :: 'i' :: 'l' :: []) r2 with
  | none => none
  | some r3 =>
    let w1 := r3.takeWhile isRegSpace
    let r4 := r3.dropWhile isRegSpace
    if w1.isEmpty then none else some (r4.reverse, nRev.reverse)

/-- Embedding of the anchored regex `(?i)\s+LIMIT\s+(\d+)\s+OFFSET\s+(\d+)\s*$`
on the reversed trimmed statement, by the same forced-from-the-right
argument.  Returns `(prefix before the match, limit digits, offset digits)`,
that is `(prefix, m[1], m[2])`. -/
def splitLimitOffsetRev (r : List Char) : Option (List Char × List Char × List Char) :=
  let mRev := r.takeWhile Char.isDigit
  let r1 := r.dropWhile Char.isDigit
  if mRev.isEmpty then none else
  let w4 := r1.takeWhile isRegSpace
  let r2 := r1.dropWhile isRegSpace
  if w4.isEmpty then none else
  match stripCI ('t' :: 'e' :: 's' :: 'f' :: 'f' :: 'o' :: []) r2 with
  | none => none
  | some r3 =>
    let w3 := r3.takeWhile isRegSpace
    let r4 := r3.dropWhile isRegSpace
    if w3.isEmpty then none else
    let nRev := r4.takeWhile Char.isDigit
    let r5 := r4.dropWhile Char.isDigit
    if nRev.isEmpty then none else
    let w2 := r5.takeWhile isRegSpace
    let r6 := r5.dropWhile isRegSpace
    if w2.isEmpty then none else
    match stripCI ('t' :: 'i' :: 'm' :: 'i' :: 'l' :: []) r6 with
    | none => none
    | some r7 =>
      let w1 := r7.takeWhile isRegSpace
      let r8 := r7.dropWhile isRegSpace
      if w1.isEmpty then none else some (r8.reverse, nRev.reverse, mRev.reverse)

/-- The substring `" order by "` that `transformLimitQuery` searches for. -/
def orderByPadL : List Char := " order by ".data

/-- The keyword `"select"` searched for on the TOP path. -/
def selectKw : List Char := "select".data

/-- Embedding of `transformLimitQuery` (src/unnamed/part_000, lines 148-183).
The branch structure mirrors the Go function: the `LIMIT n OFFSET m` regex is
tried first, then `LIMIT n`; `base` is `TrimSpace` of the trimmed statement
with the matched clause stripped.  The untouched fall-through returns the
original (untrimmed) query. -/
def transformLimitQuery (query : List Char) : List Char :=
  let trimmed := goTrimSpace query
  match splitLimitOffsetRev trimmed.reverse with
  | some (pre, n, m) =>
    let base := goTrimSpace pre
    let base2 := if containsStr (lowerL base) orderByPadL then base
                 else base ++ " ORDER BY (SELECT NULL)".data
    base2 ++ " OFFSET ".data ++ m ++ " ROWS FETCH NEXT ".data ++ n ++ " ROWS ONLY".data
  | none =>
    match splitLimitOnlyRev trimmed.reverse with
    | some (pre, n) =>
      let base := goTrimSpace pre
      if containsStr (lowerL base) orderByPadL then
        base ++ " OFFSET 0 ROWS FETCH NEXT ".data ++ n ++ " ROWS ONLY".data
      else
        match strIndex selectKw (lowerL base) with
        | some idx => base.take (idx + 6) ++ " TOP ".data ++ n ++ base.drop (idx + 6)
        | none => query
    | none => query

/-- The statement prefix `"insert into"` checked by `maybeAddOutputClause`. -/
def insertIntoL : List Char := "insert into".data

/-- The substring `" output "` checked by `maybeAddOutputClause`. -/
def outputPadL : List Char := " output ".data

/-- The token `" values"` located by `maybeAddOutputClause`. -/
def valuesL : List Char := " values".data

/-- The injected clause `" OUTPUT INSERTED.[id]"`. -/
def outputClauseL : List Char := " OUTPUT INSERTED.[id]".data

/-- Embedding of `maybeAddOutputClause` (src/unnamed/part_000, lines 121-138).
Note that `lower` is computed from the trimmed statement while the slices
taken at the found index are slices of the original `q`, exactly as in the
source. -/
def maybeAddOutputClause (q : List Char) : List Char :=
  let lower := lowerL (goTrimSpace q)
  if insertIntoL.isPrefixOf lower then
    if containsStr lower outputPadL then q
    else
      match strIndex valuesL lower with
      | some idx => q.take idx ++ outputClauseL ++ q.drop idx
      | none => q
  else q

/-- The full rewrite applied on the Exec paths:
`transformLimitQuery(translate(query))`. -/
def rewriteExecStmt (q : List Char) : List Char := transformLimitQuery (translate q)

/-- The full rewrite applied on the Query paths:
`maybeAddOutputClause(transformLimitQuery(translate(query)))`. -/
def rewriteQueryStmt (q : List Char) : List Char :=
  maybeAddOutputClause (transformLimitQuery (translate q))

/-- Abstract model of an `ent` `dialect.Tx`: the two statement operations a
transaction handle exposes, each taking statement text and the bound
argument list.  The argument type `α` and result type `β` are abstract; the
result abstracts both the driver's output parameter and its error. -/
structure EntTx (α β : Type) where
  exec : List Char → List α → β
  query : List Char → List α → β

/-- Abstract model of an `ent` `dialect.Driver`.  `execCtx`/`queryCtx` are
`none` when the wrapped driver does not implement the optional
context-aware interfaces (the `ok` of the Go type assertion), and the
driver hands out the transaction `txh` when one is begun. -/
structure EntDriver (α β : Type) where
  dialect : List Char
  exec : List Char → List α → β
  query : List Char → List α → β
  execCtx : Option (List Char → List α → β)
  queryCtx : Option (List Char → List α → β)
  txh : EntTx α β

/-- Embedding of `quoteFixTx` (src/unnamed/part_000, lines 253-259): both
operations rewrite only the statement text and forward the argument list to
the wrapped transaction as-is. -/
def quoteFixTx {α β : Type} (t : EntTx α β) : EntTx α β where
  exec := fun q args => t.exec (rewriteExecStmt q) args
  query := fun q args => t.query (rewriteQueryStmt q) args

/-- Dispatch of the optional `ExecContext` capability: use the wrapped
driver's context-aware variant when present, otherwise fall back to the base
`Exec` (the Go fallback adapts the result through an output parameter, which
`β` abstracts). -/
def execCtxOrFallback {α β : Type} (d : EntDriver α β) : List Char → List α → β :=
  fun q args =>
    match d.execCtx with
    | some f => f q args
    | none => d.exec q args

/-- Dispatch of the optional `QueryContext` capability, with the base
`Query` fallback. -/
def queryCtxOrFallback {α β : Type} (d : EntDriver α β) : List Char → List α → β :=
  fun q args =>
    match d.queryCtx with
    | some f => f q args
    | none => d.query q args

/-- Embedding of the `quoteFixDriver` wrapper methods (src/unnamed/part_000,
lines 186-251): every operation rewrites the statement text through the
pipeline and passes the argument list through unchanged; transactions are
wrapped with `quoteFixTx`. -/
def quoteFixDriver {α β : Type} (d : EntDriver α β) : EntDriver α β where
  dialect := d.dialect
  exec := fun q args => d.exec (rewriteExecStmt q) args
  query := fun q args => d.query (rewriteQueryStmt q) args
  execCtx := some (fun q args => execCtxOrFallback d (rewriteExecStmt q) args)
  queryCtx := some (fun q args => queryCtxOrFallback d (rewriteQueryStmt q) args)
  txh := quoteFixTx d.txh

/-- Embedding of `newQuoteFixDriver` (src/unnamed/part_000, lines 33-43): the
dialect label is lowercased once at construction; when it is neither
`"mssql"` nor `"sqlserver"` the argument itself is returned (the Go function
returns the very same driver reference without allocating a wrapper).  The
Go `nil` guard has no counterpart since the model's drivers are values. -/
def newQuoteFixDriver {α β : Type} (d : EntDriver α β) : EntDriver α β :=
  let dialectName := lowerL d.dialect
  if dialectName ≠ "mssql".data ∧ dialectName ≠ "sqlserver".data then d
  else quoteFixDriver d

/-- A character is a bracket delimiter. -/
def isBracket (c : Char) : Bool := if c = '[' ∨ c = ']' then true else false

/-- The strictly alternating bracket sequence of length `k` whose first
element is `[` when `ob` is `true`. -/
def altBrackets : Nat → Bool → List Char
  | 0, _ => []
  | k + 1, ob => (if ob then '[' else ']') :: altBrackets k (!ob)

/-- Number of back-ticks carrying an "outside string literal" flag. -/
def outBTflags (l : List (Char × Bool)) : Nat :=
  (l.filter (fun cb => cb.1 == bt && !cb.2)).length

/-- Number of back-ticks of the statement occurring outside string literals
(per the scanner's literal discipline, starting outside). -/
def outBT (s : List Char) : Nat := outBTflags (litFlags s false)

/-- A concrete MySQL-dialect driver used to witness the pass-through
behaviour of `newQuoteFixDriver`. -/
def mysqlDriver : EntDriver Unit Unit where
  dialect := "MySQL".data
  exec := fun _ _ => ()
  query := fun _ _ => ()
  execCtx := none
  queryCtx := none
  txh := { exec := fun _ _ => (), query := fun _ _ => () }

section Lemmas

/-- A Bool-level prefix test is an existential decomposition. -/
theorem isPrefixOf_iff_ex (p : List Char) : ∀ s : List Char,
    p.isPrefixOf s = true ↔ ∃ t, s = p ++ t := by
  induction p with
  | nil => intro s; simp [List.isPrefixOf]
  | cons a as ih =>
    intro s
    cases s with
    | nil => simp [List.isPrefixOf]
    | cons b bs =>
      simp only [List.isPrefixOf, Bool.and_eq_true, beq_iff_eq, ih bs, List.cons_append,
        List.cons.injEq]
      constructor
      · rintro ⟨rfl, t, rfl⟩; exact ⟨t, rfl, rfl⟩
      · rintro ⟨t, rfl, rfl⟩; exact ⟨rfl, t, rfl⟩

/-- Soundness of `strIndex`: a returned index is in range and the pattern
occurs there. -/
theorem strIndex_sound (pat : List Char) : ∀ (s : List Char) (i : Nat),
    strIndex pat s = some i →
    pat.isPrefixOf (s.drop i) = true ∧ i ≤ s.length := by
  intro s
  induction s with
  | nil =>
    intro i h
    simp only [strIndex] at h
    by_cases hp : pat.isEmpty
    · rw [if_pos hp] at h
      cases h
      constructor
      · cases pat with
        | nil => simp [List.isPrefixOf]
        | cons a as => simp [List.isEmpty] at hp
      · simp
    · rw [if_neg hp] at h; cases h
  | cons c rest ih =>
    intro i h
    simp only [strIndex] at h
    by_cases hp : pat.isPrefixOf (c :: rest) = true
    · rw [if_pos hp] at h
      cases h
      exact ⟨hp, Nat.zero_le _⟩
    · rw [if_neg hp] at h
      cases hi : strIndex pat rest with
      | none => rw [hi] at h; cases h
      | some j =>
        rw [hi] at h
        cases h
        obtain ⟨h1, h2⟩ := ih j hi
        exact ⟨h1, by simpa using Nat.succ_le_succ h2⟩

/-- Any explicit occurrence makes `containsStr` true. -/
theorem containsStr_of_eq (s pat a b : List Char) (h : s = a ++ pat ++ b) :
    containsStr s pat = true := by
  subst h
  unfold containsStr
  induction a with
  | nil =>
    cases pat with
    | nil =>
      cases b with
      | nil => simp [strIndex]
      | cons y ys => simp [strIndex, List.isPrefixOf]
    | cons p ps =>
      have hpre : (p :: ps).isPrefixOf ((p :: ps) ++ b) = true :=
        (isPrefixOf_iff_ex _ _).2 ⟨b, rfl⟩
      simp [strIndex, hpre]
  | cons x xs ih =>
    simp only [List.cons_append, strIndex, List.append_assoc] at ih ⊢
    split
    · rfl
    · cases hi : strIndex pat (xs ++ (pat ++ b)) with
      | none => rw [hi] at ih; simp at ih
      | some j => simp [hi]

/-- Enumeration of the RE2 `\s` class. -/
theorem regSpace_cases {c : Char} (h : isRegSpace c = true) :
    c = '\t' ∨ c = '\n' ∨ c = '\x0c' ∨ c = '\r' ∨ c = ' ' := by
  unfold isRegSpace at h
  split_ifs at h with hP
  exact hP

/-- RE2 `\s` characters are Go `unicode.IsSpace` characters. -/
theorem regSpace_goSpace {c : Char} (h : isRegSpace c = true) : isGoSpace c = true := by
  rcases regSpace_cases h with rfl | rfl | rfl | rfl | rfl <;> decide

/-- Lowercasing does not move a Go whitespace character. -/
theorem toLower_eq_self_of_goSpace {c : Char} (h : isGoSpace c = true) :
    Char.toLower c = c := by
  replace h : (if c.toNat = 0x20 ∨ (0x9 ≤ c.toNat ∧ c.toNat ≤ 0xD) ∨ c.toNat = 0x85 ∨
      c.toNat = 0xA0 ∨ c.toNat = 0x1680 ∨ (0x2000 ≤ c.toNat ∧ c.toNat ≤ 0x200A) ∨
      c.toNat = 0x2028 ∨ c.toNat = 0x2029 ∨ c.toNat = 0x202F ∨ c.toNat = 0x205F ∨
      c.toNat = 0x3000 then true else false) = true := h
  split_ifs at h with hP
  have hno : ¬(c.toNat ≥ 65 ∧ c.toNat ≤ 90) := by omega
  show (if c.toNat ≥ 65 ∧ c.toNat ≤ 90 then Char.ofNat (c.toNat + 32) else c) = c
  rw [if_neg hno]

/-- A character whose lowercase form is not Go whitespace is itself not Go
whitespace. -/
theorem goSpace_of_toLower {c d : Char} (hl : Char.toLower c = d)
    (hd : isGoSpace d = false) : isGoSpace c = false := by
  cases hb : isGoSpace c with
  | false => rfl
  | true =>
    have hcc := toLower_eq_self_of_goSpace hb
    rw [hl] at hcc
    subst hcc
    rw [hb] at hd
    simp at hd

/-- A character whose lowercase form is not an RE2 space is itself not an
RE2 space. -/
theorem regSpace_of_toLower {c d : Char} (hl : Char.toLower c = d)
    (hd : isRegSpace d = false) : isRegSpace c = false := by
  cases hb : isRegSpace c with
  | false => rfl
  | true =>
    have hg := regSpace_cases hb
    have hcc : Char.toLower c = c := by
      rcases hg with rfl | rfl | rfl | rfl | rfl <;> decide
    rw [hl] at hcc
    subst hcc
    rw [hb] at hd
    simp at hd

/-- Decimal digit characters produced by `Nat.digitChar` below 10. -/
theorem digitChar_digits : ∀ m < 10, (Nat.digitChar m).isDigit = true := by decide

/-- All characters accumulated by `Nat.toDigitsCore` in base 10 are decimal
digits. -/
theorem toDigitsCore_digits : ∀ (fuel n : Nat) (ds : List Char),
    (∀ c ∈ ds, c.isDigit = true) →
    ∀ c ∈ Nat.toDigitsCore 10 fuel n ds, c.isDigit = true := by
  intro fuel
  induction fuel with
  | zero => intro n ds hds; simpa [Nat.toDigitsCore] using hds
  | succ f ih =>
    intro n ds hds c hc
    rw [Nat.toDigitsCore] at hc
    have hd : (Nat.digitChar (n % 10)).isDigit = true :=
      digitChar_digits _ (Nat.mod_lt _ (by omega))
    by_cases hz : n / 10 = 0
    · rw [if_pos hz] at hc
      rcases List.mem_cons.1 hc with rfl | hmem
      · exact hd
      · exact hds c hmem
    · rw [if_neg hz] at hc
      refine ih (n / 10) _ ?_ c hc
      intro x hx
      rcases List.mem_cons.1 hx with rfl | hmem
      · exact hd
      · exact hds x hmem

/-- All characters of `Nat.toDigits 10 n` are decimal digits. -/
theorem toDigits_digits (n : Nat) : ∀ c ∈ Nat.toDigits 10 n, c.isDigit = true :=
  toDigitsCore_digits _ _ [] (by simp)

/-- Digits are not bracket characters. -/
theorem digit_not_bracket {c : Char} (h : c.isDigit = true) : isBracket c = false := by
  have hno : ¬(c = '[' ∨ c = ']') := by
    rintro (rfl | rfl) <;> exact absurd h (by decide)
  unfold isBracket
  rw [if_neg hno]

/-- Digits are not RE2 space characters. -/
theorem digit_not_regSpace {c : Char} (h : c.isDigit = true) : isRegSpace c = false := by
  cases hb : isRegSpace c with
  | false => rfl
  | true =>
    rcases regSpace_cases hb with rfl | rfl | rfl | rfl | rfl <;> exact absurd h (by decide)

/-- RE2 space characters are not digits. -/
theorem regSpace_not_digit {c : Char} (h : isRegSpace c = true) : c.isDigit = false := by
  rcases regSpace_cases h with rfl | rfl | rfl | rfl | rfl <;> decide

/-- The flag annotation preserves the character sequence. -/
theorem litFlags_fst : ∀ (s : List Char) (inS : Bool),
    (litFlags s inS).map Prod.fst = s := by
  intro s inS
  induction s, inS using litFlags.induct <;>
    (rw [litFlags.eq_def]; simp_all)

/-- Fusion: the one-pass scanner equals the two-phase reference semantics
(annotate literal flags, then rewrite). -/
theorem translate_fusion : ∀ (s : List Char) (ob inS : Bool) (p : Nat),
    translateAux s ob inS p = rewriteFlagged (litFlags s inS) ob p := by
  intro s ob inS p
  have hsb : ¬sq = bt := by decide
  have hsm : ¬sq = '?' := by decide
  induction s, ob, inS, p using translateAux.induct <;>
    (rw [translateAux.eq_def, litFlags.eq_def]; simp_all [rewriteFlagged])
  all_goals split
  all_goals simp_all

/-- The alternating bracket word has the announced length. -/
theorem altBrackets_length : ∀ (k : Nat) (ob : Bool), (altBrackets k ob).length = k := by
  intro k
  induction k with
  | zero => intro ob; rfl
  | succ n ih => intro ob; simp [altBrackets, ih]

/-- Brackets in the rewritten output of a bracket-free flagged input are
exactly the alternating word over the outside back-ticks. -/
theorem rewriteFlagged_brackets : ∀ (l : List (Char × Bool)) (ob : Bool) (p : Nat),
    (∀ cb ∈ l, isBracket cb.1 = false) →
    (rewriteFlagged l ob p).filter isBracket = altBrackets (outBTflags l) ob := by
  intro l ob p
  induction l, ob, p using rewriteFlagged.induct with
  | case1 ob p => intro _; simp [rewriteFlagged, outBTflags, altBrackets]
  | case2 c rest ob p ih =>
    intro hall
    have hc : isBracket c = false := hall (c, true) (by simp)
    have ih2 := ih (fun cb hcb => hall cb (List.mem_cons_of_mem _ hcb))
    simp [rewriteFlagged, List.filter_cons, hc, ih2, outBTflags, List.filter]
  | case3 flag rest ob p hflag ih =>
    intro hall
    have hf : flag = false := by simpa using hflag
    subst hf
    have ih2 := ih (fun cb hcb => hall cb (List.mem_cons_of_mem _ hcb))
    have hbrk : isBracket (if ob then '[' else ']') = true := by
      cases ob <;> decide
    have hcnt : outBTflags ((bt, false) :: rest) = outBTflags rest + 1 := by
      simp [outBTflags, List.filter]
    simp only [rewriteFlagged, Bool.false_eq_true, if_false, List.filter_cons, hbrk, ih2,
      hcnt, if_true, altBrackets]
    rfl
  | case4 flag rest ob p hflag hq ih =>
    intro hall
    have hf : flag = false := by simpa using hflag
    subst hf
    have ih2 := ih (fun cb hcb => hall cb (List.mem_cons_of_mem _ hcb))
    have hdig : (Nat.toDigits 10 p).filter isBracket = [] := by
      rw [List.filter_eq_nil_iff]
      intro a ha
      simp [digit_not_bracket (toDigits_digits p a ha)]
    have hqb : ('?' == bt) = false := by decide
    have hat : isBracket '@' = false := by decide
    have hp : isBracket 'p' = false := by decide
    have hcnt : outBTflags (('?', false) :: rest) = outBTflags rest := by
      simp [outBTflags, List.filter_cons, hqb]
    simp [rewriteFlagged, hq, List.filter_cons, List.filter_append, hdig, ih2, hcnt,
      hat, hp]
  | case5 c flag rest ob p hflag hbt hq ih =>
    intro hall
    have hf : flag = false := by simpa using hflag
    subst hf
    have hc : isBracket c = false := hall (c, false) (by simp)
    have ih2 := ih (fun cb hcb => hall cb (List.mem_cons_of_mem _ hcb))
    have hcnt : outBTflags ((c, false) :: rest) = outBTflags rest := by
      simp [outBTflags, List.filter_cons, beq_eq_false_iff_ne, hbt]
    simp [rewriteFlagged, hbt, hq, List.filter_cons, hc, ih2, hcnt]

/-- Dropping a while-prefix stops at the first failing element, wherever it
sits in an append. -/
theorem dropWhile_stop {p : Char → Bool} {c : Char} (hc : p c = false)
    (xs ys : List Char) :
    (xs ++ c :: ys).dropWhile p = xs.dropWhile p ++ c :: ys := by
  rw [List.dropWhile_append]
  split
  · next hemp =>
    have hnil : xs.dropWhile p = [] := List.isEmpty_iff.1 hemp
    simp [hnil, List.dropWhile_cons, hc]
  · rfl

/-- A run of satisfying characters followed by a failing head is consumed
exactly by `takeWhile`/`dropWhile`. -/
theorem takeWhile_run {p : Char → Bool} {run rest : List Char}
    (hrun : ∀ a ∈ run, p a = true)
    (hstop : ∀ c, rest.head? = some c → p c = false) :
    (run ++ rest).takeWhile p = run ∧ (run ++ rest).dropWhile p = rest := by
  have hrest : rest.takeWhile p = [] ∧ rest.dropWhile p = rest := by
    cases rest with
    | nil => exact ⟨rfl, rfl⟩
    | cons c cs =>
      have hcf := hstop c rfl
      exact ⟨by simp [List.takeWhile_cons, hcf], by simp [List.dropWhile_cons, hcf]⟩
  constructor
  · rw [List.takeWhile_append_of_pos hrun, hrest.1, List.append_nil]
  · rw [List.dropWhile_append_of_pos hrun, hrest.2]

/-- A statement whose head is not whitespace decomposes as its trim followed
by a run of trailing whitespace. -/
theorem goTrim_head_decomp (q : List Char)
    (hhd : ∀ c, q.head? = some c → isGoSpace c = false) :
    q = goTrimSpace q ++ (q.reverse.takeWhile isGoSpace).reverse ∧
    (∀ c ∈ (q.reverse.takeWhile isGoSpace).reverse, isGoSpace c = true) := by
  have hdrop : q.dropWhile isGoSpace = q := by
    cases q with
    | nil => rfl
    | cons c rest => simp [List.dropWhile_cons, hhd c rfl]
  constructor
  · have h1 : goTrimSpace q = (q.reverse.dropWhile isGoSpace).reverse := by
      unfold goTrimSpace
      rw [hdrop]
    rw [h1, ← List.reverse_append, List.takeWhile_append_dropWhile, List.reverse_reverse]
  · intro c hc
    rw [List.mem_reverse] at hc
    exact List.mem_takeWhile_imp hc

/-- A prefix whose last character is not whitespace survives removal of a
trailing whitespace run. -/
theorem prefixOf_append_spaces : ∀ (pat A W : List Char),
    (∀ c ∈ W, isGoSpace c = true) →
    (∀ c, pat.getLast? = some c → isGoSpace c = false) →
    pat.isPrefixOf (A ++ W) = true → pat.isPrefixOf A = true := by
  intro pat
  induction pat with
  | nil => intro A W _ _ _; simp [List.isPrefixOf]
  | cons a as ih =>
    intro A W hW hlast hp
    cases A with
    | nil =>
      simp only [List.nil_append] at hp
      obtain ⟨t, ht⟩ := (isPrefixOf_iff_ex _ _).1 hp
      obtain ⟨l, hl⟩ : ∃ l, (a :: as).getLast? = some l := by
        cases hgl : (a :: as).getLast? with
        | none => rw [List.getLast?_eq_none_iff] at hgl; cases hgl
        | some l => exact ⟨l, rfl⟩
      have hlW : l ∈ W := by
        rw [ht]
        exact List.mem_append_left t (List.mem_of_getLast?_eq_some hl)
      have h1 := hW l hlW
      rw [hlast l hl] at h1
      cases h1
    | cons b bs =>
      simp only [List.cons_append, List.isPrefixOf, Bool.and_eq_true, beq_iff_eq] at hp ⊢
      obtain ⟨rfl, hp2⟩ := hp
      refine ⟨rfl, ?_⟩
      cases as with
      | nil => simp [List.isPrefixOf]
      | cons a2 as2 =>
        exact ih bs W hW
          (fun c hc => hlast c (by rw [List.getLast?_cons_cons]; exact hc)) hp2

/-- A prefix of a list is a prefix of any right extension. -/
theorem isPrefixOf_append_ext {l X : List Char} (Y : List Char)
    (h : l.isPrefixOf X = true) : l.isPrefixOf (X ++ Y) = true := by
  obtain ⟨t, rfl⟩ := (isPrefixOf_iff_ex _ _).1 h
  exact (isPrefixOf_iff_ex _ _).2 ⟨t ++ Y, by simp⟩

/-- Lowercasing distributes over appends. -/
theorem lowerL_append (a b : List Char) : lowerL (a ++ b) = lowerL a ++ lowerL b := by
  simp [lowerL]

/-- Lowercasing fixes an all-whitespace list. -/
theorem lowerL_spaces {W : List Char} (hW : ∀ c ∈ W, isGoSpace c = true) :
    lowerL W = W := by
  unfold lowerL
  rw [List.map_congr_left (fun a ha => toLower_eq_self_of_goSpace (hW a ha))]
  exact List.map_id W

end Lemmas

section ClaimC1

/-- C1: for every input statement, the translator output is the input with
every `?` read outside a single-quoted string literal replaced by `@p`
followed by the running counter (which starts at 1 and increments at exactly
those occurrences, so the k outside-`?`s become `@p1` … `@pk` in
left-to-right order), while every `?` read inside a string literal is copied
as a literal `?`; this is the content of the two-phase reference semantics
`rewriteFlagged` over `litFlags`, whose inside-literal branch copies
characters verbatim.  The second conjunct instances the string-literal
insulation example. -/
theorem c1_placeholder_invariant :
    (∀ s : List Char, translate s = rewriteFlagged (litFlags s false) true 1) ∧
    translate ("SELECT ".data ++ [sq, 'a', '?', 'b', sq] ++ ", ?".data) =
      "SELECT ".data ++ [sq, 'a', '?', 'b', sq] ++ ", @p1".data := by
  constructor
  · intro s
    exact translate_fusion s true false 1
  · decide

end ClaimC1

section ClaimC2

/-- C2: behaviour of the scanner at a single-quote character.  Reading a
quote outside a literal toggles the flag to "inside"; reading a quote inside
a literal followed by a non-quote (or by nothing) toggles back to "outside";
reading a doubled quote inside a literal emits both characters, advances the
cursor past both, and remains inside the literal.  The final conjunct
instances the escaped-quote example `SELECT 'it''s ?'`, whose inner `?` is
left untouched. -/
theorem c2_quote_discipline :
    (∀ (rest : List Char) (ob : Bool) (p : Nat),
        translateAux (sq :: rest) ob false p = sq :: translateAux rest ob true p) ∧
    (∀ (c : Char) (rest : List Char) (ob : Bool) (p : Nat), c ≠ sq →
        translateAux (sq :: c :: rest) ob true p = sq :: translateAux (c :: rest) ob false p) ∧
    (∀ (ob : Bool) (p : Nat), translateAux [sq] ob true p = [sq]) ∧
    (∀ (rest : List Char) (ob : Bool) (p : Nat),
        translateAux (sq :: sq :: rest) ob true p = sq :: sq :: translateAux rest ob true p) ∧
    translate ("SELECT ".data ++ [sq, 'i', 't', sq, sq, 's', ' ', '?', sq]) =
      "SELECT ".data ++ [sq, 'i', 't', sq, sq, 's', ' ', '?', sq] := by
  refine ⟨?_, ?_, ?_, ?_, by decide⟩
  · intro rest ob p
    rw [translateAux.eq_def]
    simp
  · intro c rest ob p hc
    rw [translateAux.eq_def]
    simp [hc]
  · intro ob p
    rw [translateAux.eq_def]
    simp
  · intro rest ob p
    rw [translateAux.eq_def]
    simp

/-- Witness for C2 at a concrete inside-literal position with a non-quote
successor. -/
theorem c2_witness :
    translateAux (sq :: 'x' :: []) true true 1 = sq :: translateAux ('x' :: []) true false 1 :=
  c2_quote_discipline.2.1 'x' [] true 1 (by decide)

end ClaimC2

section ClaimC3

/-- C3: for a statement that literally begins with `INSERT INTO`
(case-insensitively) and whose (trimmed, lowercased) text does not contain
the substring `" output "` — the source's already-has-an-OUTPUT-clause test —
`maybeAddOutputClause` inserts `" OUTPUT INSERTED.[id]"` at the position of
the first case-insensitive occurrence of the `" values"` token boundary,
splitting the original statement there and so preserving all original casing
and content on both sides; when no such boundary exists the statement is
returned unmodified. -/
theorem c3_output_clause_injection (q : List Char)
    (hpre : insertIntoL.isPrefixOf (lowerL q) = true)
    (hout : containsStr (lowerL (goTrimSpace q)) outputPadL = false) :
    (∀ idx, strIndex valuesL (lowerL (goTrimSpace q)) = some idx →
        maybeAddOutputClause q = q.take idx ++ outputClauseL ++ q.drop idx ∧
        valuesL.isPrefixOf ((lowerL q).drop idx) = true) ∧
    (strIndex valuesL (lowerL (goTrimSpace q)) = none → maybeAddOutputClause q = q) := by
  have hq_head : ∀ c, q.head? = some c → isGoSpace c = false := by
    intro c hc
    obtain ⟨r0, hr0⟩ := (isPrefixOf_iff_ex _ _).1 hpre
    cases q with
    | nil => simp [lowerL, insertIntoL] at hr0
    | cons c0 rest =>
      injection hc with hc
      subst hc
      have hins : insertIntoL =
          'i' :: 'n' :: 's' :: 'e' :: 'r' :: 't' :: ' ' :: 'i' :: 'n' :: 't' :: 'o' :: [] := by
        decide
      rw [hins] at hr0
      simp only [lowerL, List.map_cons, List.cons_append, List.cons.injEq] at hr0
      exact goSpace_of_toLower hr0.1 (by decide)
  obtain ⟨hdecomp, hWall⟩ := goTrim_head_decomp q hq_head
  have hlowq : lowerL q =
      lowerL (goTrimSpace q) ++ (q.reverse.takeWhile isGoSpace).reverse := by
    conv_lhs => rw [hdecomp]
    rw [lowerL_append, lowerL_spaces hWall]
  have hpreT : insertIntoL.isPrefixOf (lowerL (goTrimSpace q)) = true := by
    refine prefixOf_append_spaces insertIntoL _ _ hWall ?_ ?_
    · intro c hc
      have hgl : insertIntoL.getLast? = some 'o' := by decide
      rw [hgl] at hc
      injection hc with hc
      subst hc
      decide
    · rw [← hlowq]
      exact hpre
  constructor
  · intro idx hidx
    constructor
    · simp only [maybeAddOutputClause]
      rw [if_pos hpreT]
      simp [hout, hidx]
    · obtain ⟨hsound, _⟩ := strIndex_sound valuesL _ idx hidx
      rw [hlowq, List.drop_append_eq_append_drop]
      exact isPrefixOf_append_ext _ hsound
  · intro hnone
    simp only [maybeAddOutputClause]
    rw [if_pos hpreT]
    simp [hout, hnone]

/-- Witness for C3 at the spec's output-injection example. -/
theorem c3_witness :
    maybeAddOutputClause "INSERT INTO t (a) VALUES (1)".data =
      "INSERT INTO t (a) OUTPUT INSERTED.[id] VALUES (1)".data := by
  have h := (c3_output_clause_injection "INSERT INTO t (a) VALUES (1)".data
    (by decide) (by decide)).1 17 (by decide)
  exact h.1.trans (by decide)

end ClaimC3

section ClaimC9

/-- The head surviving a `dropWhile` fails the predicate. -/
theorem dropWhile_head_false {p : Char → Bool} : ∀ (l : List Char) {c : Char}
    {rest : List Char}, l.dropWhile p = c :: rest → p c = false := by
  intro l
  induction l with
  | nil => intro c rest h; cases h
  | cons a as ih =>
    intro c rest h
    rw [List.dropWhile_cons] at h
    by_cases ha : p a = true
    · rw [if_pos ha] at h
      exact ih h
    · rw [if_neg ha] at h
      injection h with h1 _
      subst h1
      simpa using ha

/-- Every run of `maybeAddOutputClause` either returns its input or splits it
around an injected `" OUTPUT INSERTED.[id]"`. -/
theorem mao_cases (q : List Char) :
    maybeAddOutputClause q = q ∨
    ∃ idx, maybeAddOutputClause q = q.take idx ++ outputClauseL ++ q.drop idx := by
  simp only [maybeAddOutputClause]
  split
  · split
    · left; rfl
    · cases h : strIndex valuesL (lowerL (goTrimSpace q)) with
      | none => left; simp [h]
      | some idx => right; exact ⟨idx, by simp [h]⟩
  · left; rfl

/-- A statement containing the injected clause is a fixed point of
`maybeAddOutputClause`: either its trim no longer starts with `insert into`,
or the `" output "` substring test fires. -/
theorem mao_clause_fixed (A B : List Char) :
    maybeAddOutputClause (A ++ outputClauseL ++ B) = A ++ outputClauseL ++ B := by
  rw [List.append_assoc]
  by_cases hp : insertIntoL.isPrefixOf
      (lowerL (goTrimSpace (A ++ (outputClauseL ++ B)))) = true
  · have hcont : containsStr (lowerL (goTrimSpace (A ++ (outputClauseL ++ B))))
        outputPadL = true := by
      by_cases hAe : A.dropWhile isGoSpace = []
      · exfalso
        have hallA : ∀ c ∈ A, isGoSpace c = true := by
          intro c hc
          exact List.dropWhile_eq_nil_iff.1 hAe c hc
        have h1 : (A ++ (outputClauseL ++ B)).dropWhile isGoSpace =
            'O' :: ("UTPUT INSERTED.[id]".data ++ B) := by
          rw [List.dropWhile_append_of_pos hallA]
          rw [show outputClauseL = [' '] ++ 'O' :: "UTPUT INSERTED.[id]".data by decide]
          rw [show ([' '] ++ 'O' :: "UTPUT INSERTED.[id]".data) ++ B =
            [' '] ++ ('O' :: ("UTPUT INSERTED.[id]".data ++ B)) by simp]
          exact (takeWhile_run (by decide)
            (fun c hc => by injection hc with hc; subst hc; decide)).2
        have h2 : goTrimSpace (A ++ (outputClauseL ++ B)) =
            'O' :: (("UTPUT INSERTED.[id]".data ++ B).reverse.dropWhile isGoSpace).reverse := by
          unfold goTrimSpace
          rw [h1]
          rw [show ('O' :: ("UTPUT INSERTED.[id]".data ++ B)).reverse =
            ("UTPUT INSERTED.[id]".data ++ B).reverse ++ 'O' :: [] by simp]
          rw [dropWhile_stop (by decide)]
          simp
        rw [h2] at hp
        simp only [lowerL, List.map_cons] at hp
        rw [show insertIntoL =
          'i' :: 'n' :: 's' :: 'e' :: 'r' :: 't' :: ' ' :: 'i' :: 'n' :: 't' :: 'o' :: []
          by decide] at hp
        simp [List.isPrefixOf] at hp
      · obtain ⟨a0, A'', hA''⟩ := List.exists_cons_of_ne_nil hAe
        have ha0 : isGoSpace a0 = false := dropWhile_head_false A hA''
        have h1 : (A ++ (outputClauseL ++ B)).dropWhile isGoSpace =
            A.dropWhile isGoSpace ++ (outputClauseL ++ B) := by
          rw [List.dropWhile_append, hA'']
          simp
        have h2 : goTrimSpace (A ++ (outputClauseL ++ B)) =
            A.dropWhile isGoSpace ++ (" OUTPUT INSERTED.[id".data ++
              ([']'] ++ (B.reverse.dropWhile isGoSpace).reverse)) := by
          unfold goTrimSpace
          rw [h1]
          rw [show A.dropWhile isGoSpace ++ (outputClauseL ++ B) =
            (A.dropWhile isGoSpace ++ " OUTPUT INSERTED.[id".data) ++ (']' :: B) by
            rw [show outputClauseL = " OUTPUT INSERTED.[id".data ++ [']'] by decide]
            simp]
          rw [show ((A.dropWhile isGoSpace ++ " OUTPUT INSERTED.[id".data) ++ (']' :: B)).reverse
            = B.reverse ++ ']' ::
              (" OUTPUT INSERTED.[id".data.reverse ++ (A.dropWhile isGoSpace).reverse) by
            simp]
          rw [dropWhile_stop (by decide)]
          simp
        rw [h2]
        refine containsStr_of_eq _ _
          (lowerL (A.dropWhile isGoSpace))
          ("inserted.[id".data ++ ([']'] ++ lowerL ((B.reverse.dropWhile isGoSpace).reverse)))
          ?_
        have hbr : lowerL [']'] = [']'] := by decide
        have hinit : lowerL (" OUTPUT INSERTED.[id".data) =
            " output ".data ++ "inserted.[id".data := by decide
        rw [lowerL_append, lowerL_append, lowerL_append, hbr, hinit]
        rw [show outputPadL = " output ".data by decide]
        simp
    simp only [maybeAddOutputClause]
    rw [if_pos hp, hcont]
    simp
  · simp only [maybeAddOutputClause]
    rw [if_neg hp]

/-- C9: the output-clause injector is idempotent — applying it to its own
output returns that output unchanged, because an injected statement either
fails the `insert into` prefix test or trips the existing-OUTPUT substring
test on the second pass. -/
theorem c9_injector_idempotent (q : List Char) :
    maybeAddOutputClause (maybeAddOutputClause q) = maybeAddOutputClause q := by
  rcases mao_cases q with h | ⟨idx, h⟩
  · rw [h]
    exact h
  · rw [h]
    exact mao_clause_fixed _ _

end ClaimC9

section ClaimC10

/-- Counterexample to C10 as stated: this INSERT statement's lowercased text
contains the substring `" output "` (its trailing space is the statement's
final character), yet `maybeAddOutputClause` modifies the statement, because
the source's substring test runs on the whitespace-trimmed text, where the
final space — and with it the only `" output "` occurrence — is gone. -/
theorem c10_counterexample :
    containsStr (lowerL "INSERT INTO t VALUES (1) output ".data) outputPadL = true ∧
    insertIntoL.isPrefixOf (lowerL "INSERT INTO t VALUES (1) output ".data) = true ∧
    maybeAddOutputClause "INSERT INTO t VALUES (1) output ".data ≠
      "INSERT INTO t VALUES (1) output ".data := by
  refine ⟨by decide, by decide, by decide⟩

/-- C10 (amended): the existing-OUTPUT check of the injector is a plain
case-insensitive substring search over the whitespace-trimmed statement: any
INSERT statement whose trimmed lowercased text contains `" output "`
anywhere — including inside a single-quoted string-literal value — is
returned unchanged, with no identity-return clause injected. -/
theorem c10_substring_check (q : List Char)
    (hpre : insertIntoL.isPrefixOf (lowerL (goTrimSpace q)) = true)
    (hout : containsStr (lowerL (goTrimSpace q)) outputPadL = true) :
    maybeAddOutputClause q = q := by
  simp only [maybeAddOutputClause]
  rw [if_pos hpre, hout]
  simp

/-- Witness for the amended C10: the `" output "` occurrence sits inside a
string-literal value, yet injection is suppressed. -/
theorem c10_witness :
    maybeAddOutputClause
        ("INSERT INTO t (a) VALUES (".data ++ [sq] ++ " output ".data ++ [sq, ')']) =
      "INSERT INTO t (a) VALUES (".data ++ [sq] ++ " output ".data ++ [sq, ')'] :=
  c10_substring_check _ (by decide) (by decide)

end ClaimC10

section ClaimC6

/-- Counterexample to C6 as stated: a back-tick inside a string literal is
copied verbatim, so the output of `translate` on `'`'` has no bracket while
the input has one back-tick; and a bracket character already present in the
input (here `]`) is copied through, so the output brackets neither match the
back-tick count nor start with `[`. -/
theorem c6_counterexample :
    (((translate [sq, bt, sq]).filter isBracket).length ≠
      ([sq, bt, sq].filter (fun c => c == bt)).length) ∧
    ((translate [']']).filter isBracket).length ≠ ([']'].filter (fun c => c == bt)).length ∧
    ((translate [']']).filter isBracket).head? = some ']' := by
  refine ⟨by decide, by decide, by decide⟩

/-- C6 (amended): for every input containing no bracket characters of its
own, the output contains exactly as many bracket delimiters as the input
contains back-ticks outside string literals, and those brackets strictly
alternate `[`, `]`, `[`, … starting with `[` (they form the alternating word
`altBrackets` started on `[`). -/
theorem c6_bracket_invariant (s : List Char) (h : ∀ c ∈ s, isBracket c = false) :
    (translate s).filter isBracket = altBrackets (outBT s) true ∧
    ((translate s).filter isBracket).length = outBT s := by
  have hflags : ∀ cb ∈ litFlags s false, isBracket cb.1 = false := by
    intro cb hcb
    have hm : cb.1 ∈ (litFlags s false).map Prod.fst := List.mem_map_of_mem _ hcb
    rw [litFlags_fst] at hm
    exact h _ hm
  have h1 : (translate s).filter isBracket = altBrackets (outBT s) true := by
    have hf : translate s = rewriteFlagged (litFlags s false) true 1 :=
      translate_fusion s true false 1
    rw [hf]
    exact rewriteFlagged_brackets _ true 1 hflags
  exact ⟨h1, by rw [h1, altBrackets_length]⟩

/-- Witness for the amended C6 on a two-back-tick identifier quoting. -/
theorem c6_witness :
    (translate ([bt] ++ "ab".data ++ [bt])).filter isBracket =
      altBrackets (outBT ([bt] ++ "ab".data ++ [bt])) true ∧
    ((translate ([bt] ++ "ab".data ++ [bt])).filter isBracket).length =
      outBT ([bt] ++ "ab".data ++ [bt]) :=
  c6_bracket_invariant _ (by decide)

end ClaimC6

section LimitParsing

/-- A nonempty list reversed starts with its last element, a member. -/
theorem rev_cons_of_ne_nil {l : List Char} (h : l ≠ []) :
    ∃ c t, l.reverse = c :: t ∧ c ∈ l := by
  have hrev : l.reverse ≠ [] := by
    intro hr
    exact h (List.reverse_eq_nil_iff.1 hr)
  obtain ⟨c, t, hct⟩ := List.exists_cons_of_ne_nil hrev
  refine ⟨c, t, hct, ?_⟩
  rw [← List.mem_reverse, hct]
  simp

/-- `stripCI` accepts a block whose lowercasing is the pattern and returns
the remainder. -/
theorem stripCI_append : ∀ (pat xs : List Char), xs.map Char.toLower = pat →
    ∀ ys, stripCI pat (xs ++ ys) = some ys := by
  intro pat
  induction pat with
  | nil =>
    intro xs h ys
    have hx : xs = [] := by simpa using h
    subst hx
    rfl
  | cons p ps ih =>
    intro xs h ys
    rw [List.map_eq_cons_iff] at h
    obtain ⟨a, l1, rfl, hlow, hmap⟩ := h
    rw [show (a :: l1) ++ ys = a :: (l1 ++ ys) from rfl]
    rw [show stripCI (p :: ps) (a :: (l1 ++ ys)) =
      if a.toLower = p then stripCI ps (l1 ++ ys) else none from rfl]
    rw [if_pos hlow]
    exact ih l1 hmap ys

/-- `stripCI` for the reversed `OFFSET` pattern rejects a block that is a
reversed case-variant of `LIMIT`: the second compared character differs. -/
theorem stripCI_tesffo_timil {lim : List Char} (h : lim.map Char.toLower = "limit".data)
    (ys : List Char) :
    stripCI ('t' :: 'e' :: 's' :: 'f' :: 'f' :: 'o' :: []) (lim.reverse ++ ys) = none := by
  have hrev : lim.reverse.map Char.toLower = 't' :: 'i' :: 'm' :: 'i' :: 'l' :: [] := by
    rw [List.map_reverse, h]
    decide
  rw [List.map_eq_cons_iff] at hrev
  obtain ⟨t0, l1, hl, h0, hrev1⟩ := hrev
  rw [List.map_eq_cons_iff] at hrev1
  obtain ⟨t1, l2, hl1, h1, _⟩ := hrev1
  subst hl1
  rw [hl]
  rw [show (t0 :: t1 :: l2) ++ ys = t0 :: (t1 :: (l2 ++ ys)) from rfl]
  rw [show stripCI ('t' :: 'e' :: 's' :: 'f' :: 'f' :: 'o' :: []) (t0 :: (t1 :: (l2 ++ ys))) =
    if t0.toLower = 't' then
      stripCI ('e' :: 's' :: 'f' :: 'f' :: 'o' :: []) (t1 :: (l2 ++ ys)) else none from rfl]
  rw [if_pos h0]
  rw [show stripCI ('e' :: 's' :: 'f' :: 'f' :: 'o' :: []) (t1 :: (l2 ++ ys)) =
    if t1.toLower = 'e' then stripCI ('s' :: 'f' :: 'f' :: 'o' :: []) (l2 ++ ys) else none
    from rfl]
  rw [if_neg]
  rw [h1]
  decide


/-- A cons head that fails a predicate stops a scan. -/
theorem head_stop {p : Char → Bool} {h : Char} {t : List Char} (hp : p h = false) :
    ∀ c, (h :: t).head? = some c → p c = false := by
  intro c hc
  rw [List.head?_cons] at hc
  injection hc with hc
  rw [← hc]
  exact hp

/-- The `LIMIT n` suffix parser recovers a whitespace-separated trailing
`LIMIT`-clause decomposition of the trimmed statement. -/
theorem splitLimitOnly_complete (pre ws1 lim ws2 n : List Char)
    (hws1 : ws1 ≠ [] ∧ ∀ c ∈ ws1, isRegSpace c = true)
    (hlim : lim.map Char.toLower = "limit".data)
    (hws2 : ws2 ≠ [] ∧ ∀ c ∈ ws2, isRegSpace c = true)
    (hn : n ≠ [] ∧ ∀ c ∈ n, Char.isDigit c = true)
    (hpre : ∀ c, pre.getLast? = some c → isRegSpace c = false) :
    splitLimitOnlyRev ((pre ++ (ws1 ++ (lim ++ (ws2 ++ n)))).reverse) = some (pre, n) := by
  have hrev : (pre ++ (ws1 ++ (lim ++ (ws2 ++ n)))).reverse =
      n.reverse ++ (ws2.reverse ++ (lim.reverse ++ (ws1.reverse ++ pre.reverse))) := by
    simp [List.reverse_append, List.append_assoc]
  obtain ⟨w2h, w2t, hw2r, hw2m⟩ := rev_cons_of_ne_nil hws2.1
  obtain ⟨nh, nt, hnr, _⟩ := rev_cons_of_ne_nil hn.1
  obtain ⟨w1h, w1t, hw1r, _⟩ := rev_cons_of_ne_nil hws1.1
  have hlimrev : lim.reverse.map Char.toLower = 't' :: 'i' :: 'm' :: 'i' :: 'l' :: [] := by
    rw [List.map_reverse, hlim]
    decide
  obtain ⟨l0, lrest, hlr, hl0, _⟩ := List.map_eq_cons_iff.1 hlimrev
  have hl0sp : isRegSpace l0 = false := regSpace_of_toLower hl0 (by decide)
  have hstop2 : ∀ c, (ws2.reverse ++ (lim.reverse ++ (ws1.reverse ++ pre.reverse))).head? =
      some c → Char.isDigit c = false := by
    rw [hw2r, List.cons_append]
    exact head_stop (regSpace_not_digit (hws2.2 _ hw2m))
  obtain ⟨td1, dd1⟩ :=
    @takeWhile_run Char.isDigit n.reverse
      (ws2.reverse ++ (lim.reverse ++ (ws1.reverse ++ pre.reverse)))
      (fun a ha => hn.2 a (List.mem_reverse.1 ha)) hstop2
  have hstopL : ∀ c, (lim.reverse ++ (ws1.reverse ++ pre.reverse)).head? = some c →
      isRegSpace c = false := by
    rw [hlr, List.cons_append]
    exact head_stop hl0sp
  obtain ⟨td2, dd2⟩ :=
    @takeWhile_run isRegSpace ws2.reverse (lim.reverse ++ (ws1.reverse ++ pre.reverse))
      (fun a ha => hws2.2 a (List.mem_reverse.1 ha)) hstopL
  have hstopP : ∀ c, pre.reverse.head? = some c → isRegSpace c = false := by
    intro c hc
    rw [List.head?_reverse] at hc
    exact hpre c hc
  obtain ⟨td3, dd3⟩ :=
    @takeWhile_run isRegSpace ws1.reverse pre.reverse
      (fun a ha => hws1.2 a (List.mem_reverse.1 ha)) hstopP
  rw [hrev]
  simp only [splitLimitOnlyRev]
  rw [td1, dd1]
  rw [if_neg (by rw [hnr]; simp)]
  rw [td2, dd2]
  rw [if_neg (by rw [hw2r]; simp)]
  rw [stripCI_append ('t' :: 'i' :: 'm' :: 'i' :: 'l' :: []) lim.reverse hlimrev
    (ws1.reverse ++ pre.reverse)]
  simp only []
  rw [td3, dd3]
  rw [if_neg (by rw [hw1r]; simp)]
  simp

/-- The `LIMIT n OFFSET m` suffix parser recovers a whitespace-separated
trailing clause decomposition of the trimmed statement. -/
theorem splitLimitOffset_complete (pre ws1 lim ws2 n ws3 off ws4 m : List Char)
    (hws1 : ws1 ≠ [] ∧ ∀ c ∈ ws1, isRegSpace c = true)
    (hlim : lim.map Char.toLower = "limit".data)
    (hws2 : ws2 ≠ [] ∧ ∀ c ∈ ws2, isRegSpace c = true)
    (hn : n ≠ [] ∧ ∀ c ∈ n, Char.isDigit c = true)
    (hws3 : ws3 ≠ [] ∧ ∀ c ∈ ws3, isRegSpace c = true)
    (hoff : off.map Char.toLower = "offset".data)
    (hws4 : ws4 ≠ [] ∧ ∀ c ∈ ws4, isRegSpace c = true)
    (hm : m ≠ [] ∧ ∀ c ∈ m, Char.isDigit c = true)
    (hpre : ∀ c, pre.getLast? = some c → isRegSpace c = false) :
    splitLimitOffsetRev
        ((pre ++ (ws1 ++ (lim ++ (ws2 ++ (n ++ (ws3 ++ (off ++ (ws4 ++ m)))))))).reverse) =
      some (pre, n, m) := by
  have hrev : (pre ++ (ws1 ++ (lim ++ (ws2 ++ (n ++ (ws3 ++ (off ++ (ws4 ++ m)))))))).reverse =
      m.reverse ++ (ws4.reverse ++ (off.reverse ++ (ws3.reverse ++
        (n.reverse ++ (ws2.reverse ++ (lim.reverse ++ (ws1.reverse ++ pre.reverse))))))) := by
    simp [List.reverse_append, List.append_assoc]
  obtain ⟨w4h, w4t, hw4r, hw4m⟩ := rev_cons_of_ne_nil hws4.1
  obtain ⟨w3h, w3t, hw3r, hw3m⟩ := rev_cons_of_ne_nil hws3.1
  obtain ⟨w2h, w2t, hw2r, hw2m⟩ := rev_cons_of_ne_nil hws2.1
  obtain ⟨w1h, w1t, hw1r, _⟩ := rev_cons_of_ne_nil hws1.1
  obtain ⟨mh, mt, hmr, _⟩ := rev_cons_of_ne_nil hm.1
  obtain ⟨nh, nt, hnr, hnm⟩ := rev_cons_of_ne_nil hn.1
  have hlimrev : lim.reverse.map Char.toLower = 't' :: 'i' :: 'm' :: 'i' :: 'l' :: [] := by
    rw [List.map_reverse, hlim]
    decide
  obtain ⟨l0, lrest, hlr, hl0, _⟩ := List.map_eq_cons_iff.1 hlimrev
  have hl0sp : isRegSpace l0 = false := regSpace_of_toLower hl0 (by decide)
  have hoffrev : off.reverse.map Char.toLower =
      't' :: 'e' :: 's' :: 'f' :: 'f' :: 'o' :: [] := by
    rw [List.map_reverse, hoff]
    decide
  obtain ⟨o0, orest, hor, ho0, _⟩ := List.map_eq_cons_iff.1 hoffrev
  have ho0sp : isRegSpace o0 = false := regSpace_of_toLower ho0 (by decide)
  have hnh : Char.isDigit nh = true := hn.2 _ hnm
  -- step 1: offset digits
  have hstop1 : ∀ c, (ws4.reverse ++ (off.reverse ++ (ws3.reverse ++
      (n.reverse ++ (ws2.reverse ++ (lim.reverse ++ (ws1.reverse ++ pre.reverse))))))).head? =
      some c → Char.isDigit c = false := by
    rw [hw4r, List.cons_append]
    exact head_stop (regSpace_not_digit (hws4.2 _ hw4m))
  obtain ⟨td1, dd1⟩ := @takeWhile_run Char.isDigit m.reverse _
    (fun a ha => hm.2 a (List.mem_reverse.1 ha)) hstop1
  -- step 2: spaces before OFFSET
  have hstop2 : ∀ c, (off.reverse ++ (ws3.reverse ++ (n.reverse ++
      (ws2.reverse ++ (lim.reverse ++ (ws1.reverse ++ pre.reverse)))))).head? =
      some c → isRegSpace c = false := by
    rw [hor, List.cons_append]
    exact head_stop ho0sp
  obtain ⟨td2, dd2⟩ := @takeWhile_run isRegSpace ws4.reverse _
    (fun a ha => hws4.2 a (List.mem_reverse.1 ha)) hstop2
  -- step 4: spaces after OFFSET (reading reversed)
  have hstop3 : ∀ c, (n.reverse ++ (ws2.reverse ++ (lim.reverse ++
      (ws1.reverse ++ pre.reverse)))).head? = some c → isRegSpace c = false := by
    rw [hnr, List.cons_append]
    exact head_stop (digit_not_regSpace hnh)
  obtain ⟨td3, dd3⟩ := @takeWhile_run isRegSpace ws3.reverse _
    (fun a ha => hws3.2 a (List.mem_reverse.1 ha)) hstop3
  -- step 5: limit digits
  have hstop4 : ∀ c, (ws2.reverse ++ (lim.reverse ++ (ws1.reverse ++ pre.reverse))).head? =
      some c → Char.isDigit c = false := by
    rw [hw2r, List.cons_append]
    exact head_stop (regSpace_not_digit (hws2.2 _ hw2m))
  obtain ⟨td4, dd4⟩ := @takeWhile_run Char.isDigit n.reverse _
    (fun a ha => hn.2 a (List.mem_reverse.1 ha)) hstop4
  -- step 6: spaces before LIMIT digits
  have hstop5 : ∀ c, (lim.reverse ++ (ws1.reverse ++ pre.reverse)).head? = some c →
      isRegSpace c = false := by
    rw [hlr, List.cons_append]
    exact head_stop hl0sp
  obtain ⟨td5, dd5⟩ := @takeWhile_run isRegSpace ws2.reverse _
    (fun a ha => hws2.2 a (List.mem_reverse.1 ha)) hstop5
  -- step 8: spaces before the whole clause
  have hstopP : ∀ c, pre.reverse.head? = some c → isRegSpace c = false := by
    intro c hc
    rw [List.head?_reverse] at hc
    exact hpre c hc
  obtain ⟨td6, dd6⟩ := @takeWhile_run isRegSpace ws1.reverse pre.reverse
    (fun a ha => hws1.2 a (List.mem_reverse.1 ha)) hstopP
  rw [hrev]
  simp only [splitLimitOffsetRev]
  rw [td1, dd1]
  rw [if_neg (by rw [hmr]; simp)]
  rw [td2, dd2]
  rw [if_neg (by rw [hw4r]; simp)]
  rw [stripCI_append ('t' :: 'e' :: 's' :: 'f' :: 'f' :: 'o' :: []) off.reverse hoffrev
    (ws3.reverse ++ (n.reverse ++ (ws2.reverse ++ (lim.reverse ++
      (ws1.reverse ++ pre.reverse)))))]
  simp only []
  rw [td3, dd3]
  rw [if_neg (by rw [hw3r]; simp)]
  rw [td4, dd4]
  rw [if_neg (by rw [hnr]; simp)]
  rw [td5, dd5]
  rw [if_neg (by rw [hw2r]; simp)]
  rw [stripCI_append ('t' :: 'i' :: 'm' :: 'i' :: 'l' :: []) lim.reverse hlimrev
    (ws1.reverse ++ pre.reverse)]
  simp only []
  rw [td6, dd6]
  rw [if_neg (by rw [hw1r]; simp)]
  simp

/-- A trimmed statement ending in a whitespace-separated `LIMIT n` clause is
rejected by the `LIMIT n OFFSET m` parser: after the digits and whitespace it
reads a reversed `LIMIT`, not a reversed `OFFSET`. -/
theorem splitLimitOffset_none (pre ws1 lim ws2 n : List Char)
    (hlim : lim.map Char.toLower = "limit".data)
    (hws2 : ws2 ≠ [] ∧ ∀ c ∈ ws2, isRegSpace c = true)
    (hn : n ≠ [] ∧ ∀ c ∈ n, Char.isDigit c = true) :
    splitLimitOffsetRev ((pre ++ (ws1 ++ (lim ++ (ws2 ++ n)))).reverse) = none := by
  have hrev : (pre ++ (ws1 ++ (lim ++ (ws2 ++ n)))).reverse =
      n.reverse ++ (ws2.reverse ++ (lim.reverse ++ (ws1.reverse ++ pre.reverse))) := by
    simp [List.reverse_append, List.append_assoc]
  obtain ⟨w2h, w2t, hw2r, hw2m⟩ := rev_cons_of_ne_nil hws2.1
  obtain ⟨nh, nt, hnr, _⟩ := rev_cons_of_ne_nil hn.1
  have hlimrev : lim.reverse.map Char.toLower = 't' :: 'i' :: 'm' :: 'i' :: 'l' :: [] := by
    rw [List.map_reverse, hlim]
    decide
  obtain ⟨l0, lrest, hlr, hl0, _⟩ := List.map_eq_cons_iff.1 hlimrev
  have hl0sp : isRegSpace l0 = false := regSpace_of_toLower hl0 (by decide)
  have hstop1 : ∀ c, (ws2.reverse ++ (lim.reverse ++ (ws1.reverse ++ pre.reverse))).head? =
      some c → Char.isDigit c = false := by
    rw [hw2r, List.cons_append]
    exact head_stop (regSpace_not_digit (hws2.2 _ hw2m))
  obtain ⟨td1, dd1⟩ := @takeWhile_run Char.isDigit n.reverse _
    (fun a ha => hn.2 a (List.mem_reverse.1 ha)) hstop1
  have hstop2 : ∀ c, (lim.reverse ++ (ws1.reverse ++ pre.reverse)).head? = some c →
      isRegSpace c = false := by
    rw [hlr, List.cons_append]
    exact head_stop hl0sp
  obtain ⟨td2, dd2⟩ := @takeWhile_run isRegSpace ws2.reverse _
    (fun a ha => hws2.2 a (List.mem_reverse.1 ha)) hstop2
  rw [hrev]
  simp only [splitLimitOffsetRev]
  rw [td1, dd1]
  rw [if_neg (by rw [hnr]; simp)]
  rw [td2, dd2]
  rw [if_neg (by rw [hw2r]; simp)]
  rw [stripCI_tesffo_timil hlim (ws1.reverse ++ pre.reverse)]

end LimitParsing

section ClaimC4

/-- Transfer of the canonical-last-character side condition from a concrete
evaluation. -/
theorem lastNotSpace_of (pre : List Char) {c0 : Char} (h : pre.getLast? = some c0)
    (hc : isRegSpace c0 = false) :
    ∀ c, pre.getLast? = some c → isRegSpace c = false := by
  intro c hcc
  rw [h] at hcc
  injection hcc with hcc
  rw [← hcc]
  exact hc

/-- C4: a statement whose whitespace-trimmed text ends with a
whitespace-separated clause `LIMIT n OFFSET m` (case-insensitive keywords,
`n`, `m` nonempty digit runs, separators nonempty runs of the regex class
`\s`, and — canonically — the stripped prefix not itself ending in such
whitespace) is rewritten by stripping that clause and appending
`OFFSET m ROWS FETCH NEXT n ROWS ONLY` to the trimmed base; when the base
lacks an `ORDER BY` clause (the source's case-insensitive `" order by "`
substring test), `ORDER BY (SELECT NULL)` is appended to the base first. -/
theorem c4_limit_offset_rewrite (query pre ws1 lim ws2 n ws3 off ws4 m : List Char)
    (hdec : goTrimSpace query =
      pre ++ (ws1 ++ (lim ++ (ws2 ++ (n ++ (ws3 ++ (off ++ (ws4 ++ m))))))))
    (hws1 : ws1 ≠ [] ∧ ∀ c ∈ ws1, isRegSpace c = true)
    (hlim : lim.map Char.toLower = "limit".data)
    (hws2 : ws2 ≠ [] ∧ ∀ c ∈ ws2, isRegSpace c = true)
    (hn : n ≠ [] ∧ ∀ c ∈ n, Char.isDigit c = true)
    (hws3 : ws3 ≠ [] ∧ ∀ c ∈ ws3, isRegSpace c = true)
    (hoff : off.map Char.toLower = "offset".data)
    (hws4 : ws4 ≠ [] ∧ ∀ c ∈ ws4, isRegSpace c = true)
    (hm : m ≠ [] ∧ ∀ c ∈ m, Char.isDigit c = true)
    (hpre : ∀ c, pre.getLast? = some c → isRegSpace c = false) :
    (containsStr (lowerL (goTrimSpace pre)) orderByPadL = true →
      transformLimitQuery query = goTrimSpace pre ++ " OFFSET ".data ++ m ++
        " ROWS FETCH NEXT ".data ++ n ++ " ROWS ONLY".data) ∧
    (containsStr (lowerL (goTrimSpace pre)) orderByPadL = false →
      transformLimitQuery query = goTrimSpace pre ++ " ORDER BY (SELECT NULL)".data ++
        " OFFSET ".data ++ m ++ " ROWS FETCH NEXT ".data ++ n ++ " ROWS ONLY".data) := by
  have hsplit := splitLimitOffset_complete pre ws1 lim ws2 n ws3 off ws4 m
    hws1 hlim hws2 hn hws3 hoff hws4 hm hpre
  constructor
  · intro hc
    simp only [transformLimitQuery]
    rw [hdec, hsplit]
    simp [hc]
  · intro hc
    simp only [transformLimitQuery]
    rw [hdec, hsplit]
    simp [hc]

/-- Witness for C4 at the spec's pagination-with-offset example. -/
theorem c4_witness :
    transformLimitQuery "SELECT * FROM t LIMIT 10 OFFSET 20".data =
      "SELECT * FROM t ORDER BY (SELECT NULL) OFFSET 20 ROWS FETCH NEXT 10 ROWS ONLY".data := by
  have h := (c4_limit_offset_rewrite "SELECT * FROM t LIMIT 10 OFFSET 20".data
    "SELECT * FROM t".data [' '] "LIMIT".data [' '] "10".data [' '] "OFFSET".data
    [' '] "20".data
    (by decide) ⟨by decide, by decide⟩ (by decide) ⟨by decide, by decide⟩
    ⟨by decide, by decide⟩ ⟨by decide, by decide⟩ (by decide) ⟨by decide, by decide⟩
    ⟨by decide, by decide⟩ (@lastNotSpace_of "SELECT * FROM t".data 't' (by decide) (by decide))).2
    (by decide)
  exact h.trans (by decide)

end ClaimC4

section ClaimC5

/-- C5: a statement whose whitespace-trimmed text ends with a
whitespace-separated clause `LIMIT n` (and no trailing OFFSET, so the
`LIMIT n OFFSET m` pattern does not match) is rewritten as follows: when the
stripped base contains an `ORDER BY` clause (the source's `" order by "`
substring test), `OFFSET 0 ROWS FETCH NEXT n ROWS ONLY` is appended to the
base; otherwise `TOP n` is inserted immediately after the first
case-insensitive occurrence of `select`, everything else untouched; when no
`select` can be located, and likewise (last conjunct) whenever neither
trailing-LIMIT pattern matches, the statement is returned unmodified. -/
theorem c5_limit_rewrite (query pre ws1 lim ws2 n : List Char)
    (hdec : goTrimSpace query = pre ++ (ws1 ++ (lim ++ (ws2 ++ n))))
    (hws1 : ws1 ≠ [] ∧ ∀ c ∈ ws1, isRegSpace c = true)
    (hlim : lim.map Char.toLower = "limit".data)
    (hws2 : ws2 ≠ [] ∧ ∀ c ∈ ws2, isRegSpace c = true)
    (hn : n ≠ [] ∧ ∀ c ∈ n, Char.isDigit c = true)
    (hpre : ∀ c, pre.getLast? = some c → isRegSpace c = false) :
    (containsStr (lowerL (goTrimSpace pre)) orderByPadL = true →
      transformLimitQuery query =
        goTrimSpace pre ++ " OFFSET 0 ROWS FETCH NEXT ".data ++ n ++ " ROWS ONLY".data) ∧
    (containsStr (lowerL (goTrimSpace pre)) orderByPadL = false →
      (∀ idx, strIndex selectKw (lowerL (goTrimSpace pre)) = some idx →
        transformLimitQuery query = (goTrimSpace pre).take (idx + 6) ++ " TOP ".data ++
          n ++ (goTrimSpace pre).drop (idx + 6)) ∧
      (strIndex selectKw (lowerL (goTrimSpace pre)) = none →
        transformLimitQuery query = query)) ∧
    (∀ q2 : List Char, splitLimitOffsetRev (goTrimSpace q2).reverse = none →
      splitLimitOnlyRev (goTrimSpace q2).reverse = none →
      transformLimitQuery q2 = q2) := by
  have hnone := splitLimitOffset_none pre ws1 lim ws2 n hlim hws2 hn
  have hsome := splitLimitOnly_complete pre ws1 lim ws2 n hws1 hlim hws2 hn hpre
  refine ⟨?_, ?_, ?_⟩
  · intro hc
    simp only [transformLimitQuery]
    rw [hdec, hnone, hsome]
    simp [hc]
  · intro hc
    constructor
    · intro idx hidx
      simp only [transformLimitQuery]
      rw [hdec, hnone, hsome]
      simp [hc, hidx]
    · intro hidx
      simp only [transformLimitQuery]
      rw [hdec, hnone, hsome]
      simp [hc, hidx]
  · intro q2 h1 h2
    simp only [transformLimitQuery]
    rw [h1, h2]

/-- Witness for C5 at the spec's unordered-pagination example: the `TOP`
path fires with the `select` keyword found at index 0. -/
theorem c5_witness :
    transformLimitQuery "SELECT * FROM t LIMIT 10".data =
      "SELECT TOP 10 * FROM t".data := by
  have h := ((c5_limit_rewrite "SELECT * FROM t LIMIT 10".data
    "SELECT * FROM t".data [' '] "LIMIT".data [' '] "10".data
    (by decide) ⟨by decide, by decide⟩ (by decide) ⟨by decide, by decide⟩
    ⟨by decide, by decide⟩ (@lastNotSpace_of "SELECT * FROM t".data 't' (by decide) (by decide))).2.1
    (by decide)).1 0 (by decide)
  exact h.trans (by decide)

end ClaimC5

section ClaimC7

/-- C7: wrapping a driver whose lowercased dialect label is neither
`"mssql"` nor `"sqlserver"` returns the driver itself unchanged (no wrapper
is built); the dialect label is inspected once, inside the constructor. -/
theorem c7_passthrough {α β : Type} (d : EntDriver α β)
    (h1 : lowerL d.dialect ≠ "mssql".data) (h2 : lowerL d.dialect ≠ "sqlserver".data) :
    newQuoteFixDriver d = d := by
  show (if lowerL d.dialect ≠ "mssql".data ∧ lowerL d.dialect ≠ "sqlserver".data then d
        else quoteFixDriver d) = d
  rw [if_pos ⟨h1, h2⟩]

/-- Witness: a MySQL-dialect driver passes through unchanged. -/
theorem c7_witness : newQuoteFixDriver mysqlDriver = mysqlDriver :=
  c7_passthrough mysqlDriver (by decide) (by decide)

end ClaimC7

section ClaimC8

/-- C8: every statement operation of the driver wrapper and of the
transaction wrapper hands the very same argument list `args` to the wrapped
driver or transaction — the rewrite touches only the statement text.  The
`execCtx`/`queryCtx` conjuncts show the wrapper's context-aware operations
forward `args` unchanged both when the wrapped driver implements the
optional context interface and on the base-operation fallback
(`execCtxOrFallback`/`queryCtxOrFallback`). -/
theorem c8_argument_frame {α β : Type} (d : EntDriver α β) (t : EntTx α β)
    (q : List Char) (args : List α) :
    (quoteFixDriver d).exec q args = d.exec (rewriteExecStmt q) args ∧
    (quoteFixDriver d).query q args = d.query (rewriteQueryStmt q) args ∧
    (quoteFixDriver d).execCtx =
      some (fun q2 args2 => execCtxOrFallback d (rewriteExecStmt q2) args2) ∧
    (quoteFixDriver d).queryCtx =
      some (fun q2 args2 => queryCtxOrFallback d (rewriteQueryStmt q2) args2) ∧
    (quoteFixDriver d).txh = quoteFixTx d.txh ∧
    (quoteFixTx t).exec q args = t.exec (rewriteExecStmt q) args ∧
    (quoteFixTx t).query q args = t.query (rewriteQueryStmt q) args :=
  ⟨rfl, rfl, rfl, rfl, rfl, rfl, rfl⟩

end ClaimC8

end MSSQLFix
